import Mathlib

/-!
Verification development for the NEXTHASH-256 v6 reference implementation
(src/NextHash/nexthash256.c, src/NextHash/nexthash256.h).

Shallow embedding conventions:
* 32-bit machine words are `Nat` values kept below `2 ^ 32`; every arithmetic
  operation that truncates in C carries an explicit `% W32`.
* the 64-bit `bitcount` is a `Nat` reduced `% 2 ^ 64` exactly where the C
  `uint64_t` addition wraps.
* byte buffers are `List Nat`; the context's `buffer` field models the valid
  prefix (the first `buflen` bytes) of the C 64-byte staging array — the
  trailing bytes of that array are unspecified by the data model.
* fixed-size arrays (`state[16]`, `W[52]`) are `List Nat` built positionally.
-/

namespace NextHash

/-- `2^32`, the modulus of all 32-bit word arithmetic. -/
def W32 : Nat := 2 ^ 32

/-- Right rotation of a 32-bit word, from `rotr` in nexthash256.c:
`(x >> n) | (x << (32 - n))` with the shift truncated to 32 bits. -/
def rotr (x n : Nat) : Nat := (x >>> n) ||| ((x <<< (32 - n)) % W32)

/-- Left rotation of a 32-bit word, from `rotl` in nexthash256.c. -/
def rotl (x n : Nat) : Nat := ((x <<< n) % W32) ||| (x >>> (32 - n))

/-- Widening multiplication, from `widening_mul` in nexthash256.c:
the 64-bit product's high 32 bits XOR its low 32 bits. -/
def widening_mul (a b : Nat) : Nat := ((a * b) >>> 32) ^^^ ((a * b) % W32)

/-- `Ch(x,y,z) = (x & y) ^ (~x & z)`; `~x` on `uint32_t` is `0xFFFFFFFF ^ x`. -/
def Ch (x y z : Nat) : Nat := (x &&& y) ^^^ ((0xFFFFFFFF ^^^ x) &&& z)

/-- `Maj(x,y,z) = (x & y) ^ (x & z) ^ (y & z)`. -/
def Maj (x y z : Nat) : Nat := (x &&& y) ^^^ (x &&& z) ^^^ (y &&& z)

/-- `Sigma0(x) = rotr(x,2) ^ rotr(x,13) ^ rotr(x,22)`. -/
def Sigma0 (x : Nat) : Nat := rotr x 2 ^^^ rotr x 13 ^^^ rotr x 22

/-- `Sigma1(x) = rotr(x,6) ^ rotr(x,11) ^ rotr(x,25)`. -/
def Sigma1 (x : Nat) : Nat := rotr x 6 ^^^ rotr x 11 ^^^ rotr x 25

/-- `sigma0(x) = rotr(x,7) ^ rotr(x,18) ^ (x >> 3)`. -/
def sigma0 (x : Nat) : Nat := rotr x 7 ^^^ rotr x 18 ^^^ (x >>> 3)

/-- `sigma1(x) = rotr(x,17) ^ rotr(x,19) ^ (x >> 10)`. -/
def sigma1 (x : Nat) : Nat := rotr x 17 ^^^ rotr x 19 ^^^ (x >>> 10)

/-- The 52 round constants `K[52]` from nexthash256.c. -/
def K : List Nat :=
  [0x428a2f98, 0x71374491, 0xb5c0fbcf, 0xe9b5dba5] ++
  [0x3956c25b, 0x59f111f1, 0x923f82a4, 0xab1c5ed5] ++
  [0xd807aa98, 0x12835b01, 0x243185be, 0x550c7dc3] ++
  [0x72be5d74, 0x80deb1fe, 0x9bdc06a7, 0xc19bf174] ++
  [0xe49b69c1, 0xefbe4786, 0x0fc19dc6, 0x240ca1cc] ++
  [0x2de92c6f, 0x4a7484aa, 0x5cb0a9dc, 0x76f988da] ++
  [0x983e5152, 0xa831c66d, 0xb00327c8, 0xbf597fc7] ++
  [0xc6e00bf3, 0xd5a79147, 0x06ca6351, 0x14292967] ++
  [0x27b70a85, 0x2e1b2138, 0x4d2c6dfc, 0x53380d13] ++
  [0x650a7354, 0x766a0abb, 0x81c2c92e, 0x92722c85] ++
  [0xa2bfe8a1, 0xa81a664b, 0xc24b8b70, 0xc76c51a3] ++
  [0xd192e819, 0xd6990624, 0xf40e3585, 0x106aa070] ++
  [0x19a4c116, 0x1e376c08, 0x2748774c, 0x34b0bcb5]

/-- The 16 initial state words `H_INIT[16]` from nexthash256.c. -/
def H_INIT : List Nat :=
  [0x6a09e667, 0xbb67ae85, 0x3c6ef372, 0xa54ff53a] ++
  [0x510e527f, 0x9b05688c, 0x1f83d9ab, 0x5be0cd19] ++
  [0xcbbb9d5d, 0x629a292a, 0x9159015a, 0x152fecd8] ++
  [0x67332667, 0x8eb44a87, 0xdb0c2e0d, 0x47b5481d]

/-- The first loop of `expand_message` in nexthash256.c: parse the 64-byte
block into 16 big-endian 32-bit words. -/
def parseBlock (block : List Nat) : List Nat :=
  (List.range 16).map (fun i =>
    ((block.getD (i * 4) 0) <<< 24) ||| ((block.getD (i * 4 + 1) 0) <<< 16) |||
      ((block.getD (i * 4 + 2) 0) <<< 8) ||| (block.getD (i * 4 + 3) 0))

/-- The body of the expansion loop of `expand_message` in nexthash256.c:
the schedule word `W[i]` computed from the earlier entries of `W`, including
the source's negative-index guard `(i-14 < 0 ? i-14+52 : i-14)` (the `int`
condition `i - 14 < 0` is the `Nat` condition `i < 14`, and `i-14+52` is
`i + 38`). -/
def schedWord (W : List Nat) (i : Nat) : Nat :=
  let linear := (sigma1 (W.getD (i - 2) 0) + W.getD (i - 7) 0 +
    sigma0 (W.getD (i - 15) 0) + W.getD (i - 16) 0) % W32
  let nl1 := widening_mul (W.getD (i - 3) 0) (W.getD (i - 10) 0)
  let nl2 := widening_mul (W.getD (i - 5) 0) (W.getD (i - 12) 0)
  let nl3 := widening_mul (W.getD (i - 1) 0 ^^^ W.getD (i - 8) 0)
    (W.getD (i - 4) 0 ^^^ W.getD (if i < 14 then i + 38 else i - 14) 0)
  (linear + nl1 + (nl2 ^^^ nl3)) % W32

/-- The expansion loop `for (i = 16; i < 52; i++)` of `expand_message`:
run `k` more iterations, each appending the schedule word at the current
write position `W.length`. -/
def expandIter (W : List Nat) : Nat → List Nat
  | 0 => W
  | k + 1 => expandIter (W ++ [schedWord W W.length]) k

/-- `expand_message` from nexthash256.c: the 52-entry schedule array `W`
(16 parsed words, then 36 recurrence iterations). -/
def expand_message (block : List Nat) : List Nat :=
  expandIter (parseBlock block) 36

/-- One application of `nexthash_round` from nexthash256.c on a 16-word state
(any list that is not 16 long is returned unchanged; all reachable states are
16 long). All temporaries are read from the pre-update state. -/
def nexthash_round (state : List Nat) (Wi Ki : Nat) : List Nat :=
  match state with
  | [a, b, c, d, e, f, g, h, i, j, k, l, m, n, o, p] =>
    let T1 := (h + Sigma1 e + Ch e f g + Ki + Wi) % W32
    let T2 := (Sigma0 a + Maj a b c) % W32
    let M1 := widening_mul (a ^^^ i) (e ^^^ m)
    let M2 := widening_mul (b ^^^ j) (f ^^^ n)
    let M3 := widening_mul (c ^^^ k) (g ^^^ o)
    let M4 := widening_mul (d ^^^ l) (h ^^^ p)
    let M5 := widening_mul (a ^^^ m) (e ^^^ i)
    let M6 := widening_mul (b ^^^ n) (f ^^^ j)
    let M7 := widening_mul (c ^^^ o) (g ^^^ k)
    let M8 := widening_mul (d ^^^ p) (h ^^^ l)
    let M9 := widening_mul (a ^^^ p) (d ^^^ m)
    let M10 := widening_mul (b ^^^ o) (c ^^^ n)
    let T3 := (p + Sigma1 m + Ch m n o + (Ki ^^^ 0x5A5A5A5A) + Wi) % W32
    let T4 := (Sigma0 i + Maj i j k) % W32
    [(T1 + T2 + M1 + M5 + M9) % W32,
     (a + M6 + M10) % W32,
     b,
     (c + M2 + M7) % W32,
     (d + T1 + M9) % W32,
     (e + M8) % W32,
     f,
     (g + M3 + M10) % W32,
     (T3 + T4 + M1 + M5) % W32,
     (i + M6) % W32,
     j,
     (k + M4 + M7) % W32,
     (l + T3 + M9) % W32,
     (m + M8) % W32,
     n,
     (o + (M2 ^^^ M3 ^^^ M4) + M10) % W32]
  | _ => state

/-- `full_permutation` from nexthash256.c: the fixed 16-way interleave
`[s0, s8, s1, s9, s2, s10, s3, s11, s4, s12, s5, s13, s6, s14, s7, s15]`. -/
def full_permutation (state : List Nat) : List Nat :=
  match state with
  | [t0, t1, t2, t3, t4, t5, t6, t7,
     t8, t9, t10, t11, t12, t13, t14, t15] =>
    [t0, t8, t1, t9, t2, t10, t3, t11,
     t4, t12, t5, t13, t6, t14, t7, t15]
  | _ => state

/-- `compress` from nexthash256.c: expand the block, copy the state into a
working state, run 52 rounds with the interleave after every 4th round, then
add the working state back into the original state word-wise mod `2^32`. -/
def compress (state : List Nat) (block : List Nat) : List Nat :=
  let W := expand_message block
  let working := (List.range 52).foldl
    (fun s r =>
      let s1 := nexthash_round s (W.getD r 0) (K.getD r 0)
      if (r + 1) % 4 = 0 then full_permutation s1 else s1) state
  List.zipWith (fun x y => (x + y) % W32) state working

/-- The first fold (16 words to 8) of `finalize_hash` in nexthash256.c. -/
def fold16to8 (state : List Nat) : List Nat :=
  (List.range 8).map (fun i =>
    let upper := state.getD i 0
    let lower := state.getD (i + 8) 0
    ((upper ^^^ lower) + widening_mul upper (rotl lower 13) +
      widening_mul lower (rotr upper 7) +
      widening_mul (upper ^^^ lower) (rotr upper 3 ^^^ rotl lower 11) +
      rotr (upper ^^^ lower) (i + 1)) % W32)

/-- One of the three final mixing passes of `finalize_hash` in nexthash256.c. -/
def mixPass (folded : List Nat) : List Nat :=
  (List.range 8).map (fun i =>
    (folded.getD i 0 +
      widening_mul (folded.getD ((i + 1) % 8) 0) (folded.getD ((i + 5) % 8) 0) +
      widening_mul (folded.getD ((i + 2) % 8) 0) (folded.getD ((i + 6) % 8) 0) +
      rotr (folded.getD ((i + 3) % 8) 0) 7 +
      rotl (folded.getD ((i + 7) % 8) 0) 11) % W32)

/-- Big-endian byte serialization of one 32-bit word (the output loop of
`finalize_hash`). -/
def be32 (w : Nat) : List Nat :=
  [(w >>> 24) % 256, (w >>> 16) % 256, (w >>> 8) % 256, w % 256]

/-- Big-endian serialization of a word list into bytes. -/
def bytesBE : List Nat → List Nat
  | [] => []
  | w :: ws => be32 w ++ bytesBE ws

/-- `finalize_hash` from nexthash256.c: fold 16 words to 8, run three mixing
passes, and emit the 32-byte big-endian digest. -/
def finalize_hash (state : List Nat) : List Nat :=
  bytesBE (mixPass (mixPass (mixPass (fold16to8 state))))

/-- The `nexthash256_ctx` structure from nexthash256.h. `buffer` models the
valid prefix (first `buflen` bytes) of the C 64-byte staging array. -/
structure nexthash256_ctx where
  state : List Nat
  bitcount : Nat
  buffer : List Nat
  buflen : Nat

/-- `nexthash256_init` from nexthash256.c. -/
def nexthash256_init : nexthash256_ctx := ⟨H_INIT, 0, [], 0⟩

/-- The `while (len >= 64)` loop of `nexthash256_update`: compress complete
64-byte blocks from the front of `data`. Returns the new state, the leftover
bytes (fewer than 64), and the number of `compress` invocations. -/
def processBlocks (state : List Nat) (data : List Nat) :
    List Nat × List Nat × Nat :=
  if h : 64 ≤ data.length then
    let r := processBlocks (compress state (data.take 64)) (data.drop 64)
    (r.1, r.2.1, r.2.2 + 1)
  else
    (state, data, 0)
termination_by data.length
decreasing_by
  simp only [List.length_drop]
  omega

/-- `nexthash256_update` from nexthash256.c, instrumented to also return the
number of `compress` invocations it performs. The C `size_t need = 64 -
buflen` is the `Nat` subtraction (they agree on the data-model range
`buflen ≤ 64`). -/
def nexthash256_updateAux (ctx : nexthash256_ctx) (data : List Nat) :
    nexthash256_ctx × Nat :=
  let bc := (ctx.bitcount + data.length * 8) % 2 ^ 64
  if 0 < ctx.buflen then
    let need := 64 - ctx.buflen
    if data.length < need then
      (⟨ctx.state, bc, ctx.buffer ++ data, ctx.buflen + data.length⟩, 0)
    else
      let st1 := compress ctx.state (ctx.buffer ++ data.take need)
      let r := processBlocks st1 (data.drop need)
      (⟨r.1, bc, r.2.1, r.2.1.length⟩, r.2.2 + 1)
  else
    let r := processBlocks ctx.state data
    (⟨r.1, bc, r.2.1, r.2.1.length⟩, r.2.2)

/-- `nexthash256_update` from nexthash256.c (the context effect). -/
def nexthash256_update (ctx : nexthash256_ctx) (data : List Nat) :
    nexthash256_ctx :=
  (nexthash256_updateAux ctx data).1

/-- The padding length computed by `nexthash256_final`:
`(buflen < 56) ? (56 - buflen) : (120 - buflen)`. -/
def padLenOf (b : Nat) : Nat := if b < 56 then 56 - b else 120 - b

/-- The 8-byte big-endian encoding of the 64-bit bit counter, as written into
`pad[padlen .. padlen+8)` by `nexthash256_final`. -/
def bitcountBytes (bc : Nat) : List Nat :=
  [(bc >>> 56) % 256, (bc >>> 48) % 256, (bc >>> 40) % 256, (bc >>> 32) % 256,
   (bc >>> 24) % 256, (bc >>> 16) % 256, (bc >>> 8) % 256, bc % 256]

/-- The `padlen + 8` bytes fed to `nexthash256_update` by `nexthash256_final`:
`0x80`, then `padlen - 1` zero bytes, then the pre-padding bit count in
big-endian order. -/
def padBytes (ctx : nexthash256_ctx) : List Nat :=
  (0x80 :: List.replicate (padLenOf ctx.buflen - 1) 0) ++
    bitcountBytes ctx.bitcount

/-- The all-zero context left behind by `memset(ctx, 0, sizeof(*ctx))`. -/
def zeroedCtx : nexthash256_ctx :=
  ⟨List.replicate 16 0, 0, List.replicate 64 0, 0⟩

/-- `nexthash256_final` from nexthash256.c, instrumented with the number of
`compress` invocations it performs: absorb the padding and length suffix
through `nexthash256_update`, emit the digest, and zero the context. -/
def nexthash256_finalAux (ctx : nexthash256_ctx) :
    (List Nat × nexthash256_ctx) × Nat :=
  let r := nexthash256_updateAux ctx (padBytes ctx)
  ((finalize_hash r.1.state, zeroedCtx), r.2)

/-- `nexthash256_final` from nexthash256.c: the digest and the cleared
context. -/
def nexthash256_final (ctx : nexthash256_ctx) : List Nat × nexthash256_ctx :=
  (nexthash256_finalAux ctx).1

/-- The one-shot `nexthash256` from nexthash256.c: init, update, final. -/
def nexthash256 (data : List Nat) : List Nat :=
  (nexthash256_final (nexthash256_update nexthash256_init data)).1

/-- `hmac_nexthash256` from nexthash256.c: keys longer than 64 bytes are
replaced by their digest; inner hash of `k_ipad ++ data`, outer hash of
`k_opad ++ inner`, with the pads built by memset + XOR of the key prefix. -/
def hmac_nexthash256 (key data : List Nat) : List Nat :=
  let key1 := if 64 < key.length then nexthash256 key else key
  let k_ipad := key1.map (fun b => 0x36 ^^^ b) ++
    List.replicate (64 - key1.length) 0x36
  let k_opad := key1.map (fun b => 0x5C ^^^ b) ++
    List.replicate (64 - key1.length) 0x5C
  let ctx1 := nexthash256_update nexthash256_init k_ipad
  let ctx2 := nexthash256_update ctx1 data
  let inner := (nexthash256_final ctx2).1
  let ctx3 := nexthash256_update nexthash256_init k_opad
  let ctx4 := nexthash256_update ctx3 inner
  (nexthash256_final ctx4).1

/-! ### Spec-side model of the compression loop (for the refinement claim) -/

/-- The round loop of spec §4.5, written as a recursion following the spec's
words: for `r` in `0..n`, apply `round(S, W[r], K[r])` and, when
`(r+1) mod 4 == 0`, the interleave permutation. -/
def specRounds (W : Nat → Nat) : Nat → List Nat → List Nat
  | 0, S => S
  | r + 1, S =>
    let S1 := nexthash_round (specRounds W r S) (W r) (K.getD r 0)
    if (r + 1) % 4 = 0 then full_permutation S1 else S1

/-- Compression as described by spec §4.5: copy `H` into the working state,
run the 52-round loop with the periodic permutation, then the feed-forward
addition `H[i] + S[i] mod 2^32`. -/
def compress_model (H B : List Nat) : List Nat :=
  List.zipWith (fun h s => (h + s) % W32) H
    (specRounds (fun r => (expand_message B).getD r 0) 52 H)

/-! ### Auxiliary definitions for the streaming claims -/

/-- Well-formedness of a context, from the spec data model (§3): `buffer`
holds exactly `buflen` bytes, `buflen < 64`, and `bitcount` fits in 64 bits. -/
def WFctx (ctx : nexthash256_ctx) : Prop :=
  ctx.buffer.length = ctx.buflen ∧ ctx.buflen < 64 ∧ ctx.bitcount < 2 ^ 64

/-- Concatenation of the parts of a partitioned message. -/
def joinParts : List (List Nat) → List Nat
  | [] => []
  | p :: ps => p ++ joinParts ps

/-- A sequence of `nexthash256_update` calls, one per part, accumulating the
total number of `compress` invocations. -/
def streamCount : nexthash256_ctx → List (List Nat) → nexthash256_ctx × Nat
  | ctx, [] => (ctx, 0)
  | ctx, p :: ps =>
    let r := nexthash256_updateAux ctx p
    let s := streamCount r.1 ps
    (s.1, r.2 + s.2)

/-- The `foldl` over `List.range n` in `compress` agrees with the spec-side
recursion `specRounds`. -/
theorem foldl_range_specRounds (W : Nat → Nat) (n : Nat) (S : List Nat) :
    (List.range n).foldl
      (fun s r =>
        let s1 := nexthash_round s (W r) (K.getD r 0)
        if (r + 1) % 4 = 0 then full_permutation s1 else s1) S
      = specRounds W n S := by
  induction n with
  | zero => rfl
  | succ m ih =>
    rw [List.range_succ]
    rw [List.foldl_append]
    rw [ih]
    rfl

/-- C2: the compression function copies the pre-block state into a working
state, expands the block into `W[0..52)`, runs 52 rounds applying
`round(S, W[r], K[r])` and, whenever `(r+1) mod 4 == 0` (including after the
last round `r = 51`), the fixed interleave permutation, and finally performs
the feed-forward addition `H[i] + S[i] mod 2^32` (not replacement), exactly
as spec §4.5 describes. -/
theorem compress_eq_compress_model (H B : List Nat) :
    compress H B = compress_model H B := by
  simp only [compress, compress_model]
  exact congrArg (List.zipWith (fun x y => (x + y) % W32) H)
    (foldl_range_specRounds (fun r => (expand_message B).getD r 0) 52 H)

/-! ### C10: the interleave permutation has order 4 -/

/-- C10: on every 16-word state, four successive applications of the fixed
interleave permutation return the original state, and consequently the 13
permutations performed across a 52-round compression (one every 4 rounds)
compose to a single application of the interleave. -/
theorem full_permutation_order_four
    (w0 w1 w2 w3 w4 w5 w6 w7
      w8 w9 w10 w11 w12 w13 w14 w15 : Nat) :
    full_permutation (full_permutation (full_permutation (full_permutation
        [w0, w1, w2, w3, w4, w5, w6, w7,
         w8, w9, w10, w11, w12, w13, w14, w15])))
      = [w0, w1, w2, w3, w4, w5, w6, w7,
         w8, w9, w10, w11, w12, w13, w14, w15] ∧
    full_permutation (full_permutation (full_permutation (full_permutation
      (full_permutation (full_permutation (full_permutation (full_permutation
      (full_permutation (full_permutation (full_permutation (full_permutation
      (full_permutation
        [w0, w1, w2, w3, w4, w5, w6, w7,
         w8, w9, w10, w11, w12, w13, w14, w15]))))))))))))
      = full_permutation
        [w0, w1, w2, w3, w4, w5, w6, w7,
         w8, w9, w10, w11, w12, w13, w14, w15] := by
  exact ⟨rfl, rfl⟩

/-! ### C7: finalization zeroes the context -/

/-- C7: after `nexthash256_final`, every field of the context — the 16 state
words, the 64-byte buffer, `bitcount`, and `buflen` — is zero (the
`memset(ctx, 0, sizeof(*ctx))` at the end of the function). -/
theorem final_zeroes_ctx (ctx : nexthash256_ctx) :
    (nexthash256_final ctx).2.state = List.replicate 16 0 ∧
    (nexthash256_final ctx).2.bitcount = 0 ∧
    (nexthash256_final ctx).2.buffer = List.replicate 64 0 ∧
    (nexthash256_final ctx).2.buflen = 0 :=
  ⟨rfl, rfl, rfl, rfl⟩

/-! ### C3: the schedule recurrence and the dead negative-index guard -/

theorem expandIter_length (k : Nat) : ∀ W : List Nat,
    (expandIter W k).length = W.length + k := by
  induction k with
  | zero => intro W; rfl
  | succ k ih =>
    intro W
    rw [expandIter, ih, List.length_append]
    simp
    omega

theorem expandIter_getD (k : Nat) : ∀ (W : List Nat) (j : Nat),
    j < W.length → (expandIter W k).getD j 0 = W.getD j 0 := by
  induction k with
  | zero => intro W j _; rfl
  | succ k ih =>
    intro W j hj
    rw [expandIter, ih _ j (by simp; omega), List.getD_append _ _ _ _ hj]

/-- `schedWord` at a position `16 ≤ i ≤ W.length` reads only entries strictly
below `W.length`, so appending to `W` does not change it. -/
theorem schedWord_append (W L : List Nat) (i : Nat) (h16 : 16 ≤ i)
    (hi : i ≤ W.length) : schedWord (W ++ L) i = schedWord W i := by
  have hg : (if i < 14 then i + 38 else i - 14) = i - 14 := by
    rw [if_neg (by omega)]
  simp only [schedWord, hg]
  rw [List.getD_append _ _ _ _ (by omega), List.getD_append _ _ _ _ (by omega),
    List.getD_append _ _ _ _ (by omega), List.getD_append _ _ _ _ (by omega),
    List.getD_append _ _ _ _ (by omega), List.getD_append _ _ _ _ (by omega),
    List.getD_append _ _ _ _ (by omega), List.getD_append _ _ _ _ (by omega),
    List.getD_append _ _ _ _ (by omega), List.getD_append _ _ _ _ (by omega),
    List.getD_append _ _ _ _ (by omega), List.getD_append _ _ _ _ (by omega)]

/-- The expansion loop establishes the schedule recurrence at every position
it writes: every entry at index `16 ≤ i` of the result equals `schedWord`
of the result at `i`. -/
theorem expandIter_rec (k : Nat) : ∀ W : List Nat, 16 ≤ W.length →
    (∀ i, 16 ≤ i → i < W.length → W.getD i 0 = schedWord W i) →
    ∀ i, 16 ≤ i → i < (expandIter W k).length →
      (expandIter W k).getD i 0 = schedWord (expandIter W k) i := by
  induction k with
  | zero => intro W _ hP i h16 hi; exact hP i h16 hi
  | succ k ih =>
    intro W hW hP i h16 hi
    rw [expandIter]
    apply ih (W ++ [schedWord W W.length]) (by simp; omega)
    · intro j hj16 hjlt
      rw [List.length_append, List.length_singleton] at hjlt
      rcases Nat.lt_or_ge j W.length with hj | hj
      · rw [List.getD_append _ _ _ _ hj, schedWord_append _ _ _ hj16 (by omega)]
        exact hP j hj16 hj
      · have hjeq : j = W.length := by omega
        subst hjeq
        rw [schedWord_append _ _ _ hj16 (by omega)]
        rw [List.getD_eq_getElem?_getD, List.getElem?_concat_length]
        rfl
    · exact h16
    · rw [expandIter] at hi; exact hi

/-- C3: for every 64-byte block and every `16 ≤ i < 52`, the schedule entry
`W[i]` of `expand_message` satisfies
`W[i] = (σ1(W[i-2]) + W[i-7] + σ0(W[i-15]) + W[i-16]) + wmul(W[i-3], W[i-10])
+ (wmul(W[i-5], W[i-12]) XOR wmul(W[i-1] XOR W[i-8], W[i-4] XOR W[i-14]))`
with all additions mod `2^32`; in particular the source's negative-index
guard `(i-14 < 0 ? i-14+52 : i-14)` never fires, so the guarded index always
equals `i - 14`. -/
theorem expand_message_rec (B : List Nat) (i : Nat) (h16 : 16 ≤ i)
    (h52 : i < 52) :
    (expand_message B).getD i 0 =
      ((sigma1 ((expand_message B).getD (i - 2) 0) +
          (expand_message B).getD (i - 7) 0 +
          sigma0 ((expand_message B).getD (i - 15) 0) +
          (expand_message B).getD (i - 16) 0) % W32 +
        widening_mul ((expand_message B).getD (i - 3) 0)
          ((expand_message B).getD (i - 10) 0) +
        (widening_mul ((expand_message B).getD (i - 5) 0)
            ((expand_message B).getD (i - 12) 0) ^^^
          widening_mul
            ((expand_message B).getD (i - 1) 0 ^^^
              (expand_message B).getD (i - 8) 0)
            ((expand_message B).getD (i - 4) 0 ^^^
              (expand_message B).getD (i - 14) 0))) % W32 ∧
      (if i < 14 then i + 38 else i - 14) = i - 14 := by
  have hlen : (parseBlock B).length = 16 := by
    simp [parseBlock]
  have hlen52 : (expand_message B).length = 52 := by
    rw [expand_message, expandIter_length, hlen]
  have h := expandIter_rec 36 (parseBlock B) (by omega)
    (by intro j hj16 hjlt; omega) i h16 (by rw [← expand_message] at *; omega)
  rw [← expand_message] at h
  refine ⟨?_, by rw [if_neg (by omega)]⟩
  rw [h]
  simp only [schedWord, if_neg (show ¬ i < 14 by omega)]

/-! ### Characterization of the block loop and of update -/

/-- The block loop leaves a leftover shorter than one block and performs one
`compress` per complete 64-byte block. -/
theorem processBlocks_len (state data : List Nat) :
    (processBlocks state data).2.1.length = data.length % 64 ∧
    (processBlocks state data).2.2 = data.length / 64 := by
  induction state, data using processBlocks.induct with
  | case1 state data h ih =>
    rw [processBlocks]
    simp only [dif_pos h]
    rcases ih with ⟨ih1, ih2⟩
    simp only [List.length_drop] at ih1 ih2
    refine ⟨by rw [ih1]; omega, by rw [ih2]; omega⟩
  | case2 state data h =>
    rw [processBlocks]
    simp only [dif_neg h]
    omega

/-- Processing `data ++ ys` is processing `data`, then processing the
leftover of `data` followed by `ys`; the compress counts add. -/
theorem processBlocks_append (ys : List Nat) (state data : List Nat) :
    processBlocks state (data ++ ys) =
      ((processBlocks (processBlocks state data).1
          ((processBlocks state data).2.1 ++ ys)).1,
       (processBlocks (processBlocks state data).1
          ((processBlocks state data).2.1 ++ ys)).2.1,
       (processBlocks state data).2.2 +
         (processBlocks (processBlocks state data).1
            ((processBlocks state data).2.1 ++ ys)).2.2) := by
  induction state, data using processBlocks.induct with
  | case1 state data h ih =>
    have hlen : 64 ≤ (data ++ ys).length := by
      rw [List.length_append]; omega
    have hstep : processBlocks state data =
        ((processBlocks (compress state (data.take 64)) (data.drop 64)).1,
         (processBlocks (compress state (data.take 64)) (data.drop 64)).2.1,
         (processBlocks (compress state (data.take 64)) (data.drop 64)).2.2 + 1) := by
      rw [processBlocks]
      simp only [dif_pos h]
    have hlhs : processBlocks state (data ++ ys) =
        ((processBlocks (compress state (data.take 64)) (data.drop 64 ++ ys)).1,
         (processBlocks (compress state (data.take 64)) (data.drop 64 ++ ys)).2.1,
         (processBlocks (compress state (data.take 64)) (data.drop 64 ++ ys)).2.2 + 1) := by
      rw [processBlocks]
      simp only [dif_pos hlen, List.take_append_of_le_length h,
        List.drop_append_of_le_length h]
    rw [hlhs, hstep, ih]
    simp only [Prod.mk.injEq, true_and, and_true]
    omega
  | case2 state data h =>
    have hstep : processBlocks state data = (state, data, 0) := by
      rw [processBlocks]
      simp only [dif_neg h]
    rw [hstep]
    simp

/-- On a well-formed context, `nexthash256_update` behaves as: run the block
loop over the buffered bytes followed by the new data, stash the leftover,
and add `8 * len` to the bit counter mod `2^64`. -/
theorem updateAux_spec (ctx : nexthash256_ctx) (data : List Nat)
    (hbuf : ctx.buffer.length = ctx.buflen) (hlt : ctx.buflen < 64) :
    nexthash256_updateAux ctx data =
      (⟨(processBlocks ctx.state (ctx.buffer ++ data)).1,
        (ctx.bitcount + data.length * 8) % 2 ^ 64,
        (processBlocks ctx.state (ctx.buffer ++ data)).2.1,
        (processBlocks ctx.state (ctx.buffer ++ data)).2.1.length⟩,
       (processBlocks ctx.state (ctx.buffer ++ data)).2.2) := by
  simp only [nexthash256_updateAux]
  by_cases h0 : 0 < ctx.buflen
  · rw [if_pos h0]
    by_cases hsmall : data.length < 64 - ctx.buflen
    · rw [if_pos hsmall]
      have hP : processBlocks ctx.state (ctx.buffer ++ data) =
          (ctx.state, ctx.buffer ++ data, 0) := by
        rw [processBlocks]
        simp only [List.length_append]
        rw [dif_neg (by omega)]
      rw [hP]
      simp only [Prod.mk.injEq, nexthash256_ctx.mk.injEq, List.length_append,
        true_and, and_true]
      omega
    · rw [if_neg hsmall]
      have h64 : (64 : Nat) = ctx.buffer.length + (64 - ctx.buflen) := by omega
      have hP : processBlocks ctx.state (ctx.buffer ++ data) =
          ((processBlocks
              (compress ctx.state (ctx.buffer ++ data.take (64 - ctx.buflen)))
              (data.drop (64 - ctx.buflen))).1,
           (processBlocks
              (compress ctx.state (ctx.buffer ++ data.take (64 - ctx.buflen)))
              (data.drop (64 - ctx.buflen))).2.1,
           (processBlocks
              (compress ctx.state (ctx.buffer ++ data.take (64 - ctx.buflen)))
              (data.drop (64 - ctx.buflen))).2.2 + 1) := by
        rw [processBlocks]
        rw [dif_pos (by rw [List.length_append]; omega)]
        rw [h64, List.take_append, List.drop_append, ← h64]
      rw [hP]
  · rw [if_neg h0]
    have hbuf0 : ctx.buffer = [] := by
      rw [← List.length_eq_zero, hbuf]
      omega
    rw [hbuf0, List.nil_append]

/-- `nexthash256_update` preserves context well-formedness. -/
theorem WFctx_update (ctx : nexthash256_ctx) (data : List Nat)
    (h : WFctx ctx) : WFctx (nexthash256_update ctx data) := by
  obtain ⟨hbuf, hlt, _⟩ := h
  simp only [nexthash256_update]
  rw [updateAux_spec ctx data hbuf hlt]
  refine ⟨rfl, ?_, Nat.mod_lt _ (by norm_num)⟩
  show (processBlocks ctx.state (ctx.buffer ++ data)).2.1.length < 64
  rw [(processBlocks_len ctx.state (ctx.buffer ++ data)).1]
  omega

/-- Updating with the empty byte sequence leaves a well-formed context
unchanged. -/
theorem update_nil (ctx : nexthash256_ctx) (h : WFctx ctx) :
    nexthash256_update ctx [] = ctx := by
  obtain ⟨hbuf, hlt, hbc⟩ := h
  simp only [nexthash256_update]
  rw [updateAux_spec ctx [] hbuf hlt]
  have hP : processBlocks ctx.state (ctx.buffer ++ []) =
      (ctx.state, ctx.buffer, 0) := by
    rw [List.append_nil, processBlocks]
    rw [dif_neg (by omega)]
  rw [hP]
  simp only [List.length_nil, Nat.zero_mul, Nat.add_zero]
  rw [Nat.mod_eq_of_lt hbc, hbuf]

/-- Two successive updates absorb the concatenation of their inputs. -/
theorem update_append (ctx : nexthash256_ctx) (xs ys : List Nat)
    (h : WFctx ctx) :
    nexthash256_update (nexthash256_update ctx xs) ys =
      nexthash256_update ctx (xs ++ ys) := by
  obtain ⟨hbuf, hlt, _⟩ := h
  simp only [nexthash256_update]
  rw [updateAux_spec ctx xs hbuf hlt]
  rw [updateAux_spec _ ys rfl (by
    show (processBlocks ctx.state (ctx.buffer ++ xs)).2.1.length < 64
    rw [(processBlocks_len ctx.state (ctx.buffer ++ xs)).1]
    omega)]
  rw [updateAux_spec ctx (xs ++ ys) hbuf hlt]
  rw [← List.append_assoc]
  rw [processBlocks_append ys ctx.state (ctx.buffer ++ xs)]
  simp only [nexthash256_ctx.mk.injEq, true_and, and_true]
  rw [Nat.mod_add_mod, List.length_append]
  congr 1
  ring


/-! ### Streaming lemmas -/

/-- The initial context is well-formed. -/
theorem WFctx_init : WFctx nexthash256_init :=
  ⟨rfl, by decide, by decide⟩

/-- A sequence of updates on a well-formed context absorbs the concatenation
of its inputs. -/
theorem foldl_update_join (parts : List (List Nat)) : ∀ ctx : nexthash256_ctx,
    WFctx ctx →
    List.foldl nexthash256_update ctx parts =
      nexthash256_update ctx (joinParts parts) := by
  induction parts with
  | nil =>
    intro ctx h
    rw [List.foldl_nil, joinParts, update_nil ctx h]
  | cons p ps ih =>
    intro ctx h
    rw [List.foldl_cons, joinParts, ih _ (WFctx_update ctx p h),
      update_append ctx p (joinParts ps) h]

/-- `streamCount` runs the same updates as `foldl nexthash256_update`, ends
with `buflen` and `bitcount` determined by the total length, and counts one
`compress` per complete 64-byte block of buffered-plus-absorbed input. -/
theorem streamCount_spec (parts : List (List Nat)) :
    ∀ ctx : nexthash256_ctx, WFctx ctx →
    (streamCount ctx parts).1 = List.foldl nexthash256_update ctx parts ∧
    (streamCount ctx parts).1.buflen =
      (ctx.buflen + (joinParts parts).length) % 64 ∧
    (streamCount ctx parts).1.bitcount =
      (ctx.bitcount + (joinParts parts).length * 8) % 2 ^ 64 ∧
    (streamCount ctx parts).2 =
      (ctx.buflen + (joinParts parts).length) / 64 := by
  induction parts with
  | nil =>
    intro ctx h
    obtain ⟨hbuf, hlt, hbc⟩ := h
    refine ⟨rfl, ?_, ?_, ?_⟩
    · show ctx.buflen = (ctx.buflen + (joinParts []).length) % 64
      rw [joinParts]
      simp only [List.length_nil, Nat.add_zero]
      omega
    · show ctx.bitcount = (ctx.bitcount + (joinParts []).length * 8) % 2 ^ 64
      rw [joinParts]
      simp only [List.length_nil, Nat.zero_mul, Nat.add_zero]
      rw [Nat.mod_eq_of_lt hbc]
    · show 0 = (ctx.buflen + (joinParts []).length) / 64
      rw [joinParts]
      simp only [List.length_nil, Nat.add_zero]
      omega
  | cons p ps ih =>
    intro ctx h
    obtain ⟨hbuf, hlt, hbc⟩ := h
    have hupd := updateAux_spec ctx p hbuf hlt
    have hWF1 : WFctx (nexthash256_update ctx p) := WFctx_update ctx p ⟨hbuf, hlt, hbc⟩
    have hstep : streamCount ctx (p :: ps) =
        ((streamCount (nexthash256_update ctx p) ps).1,
         (nexthash256_updateAux ctx p).2 +
           (streamCount (nexthash256_update ctx p) ps).2) := by
      rfl
    obtain ⟨ih1, ih2, ih3, ih4⟩ := ih (nexthash256_update ctx p) hWF1
    have hb1 : (nexthash256_update ctx p).buflen =
        (ctx.buflen + p.length) % 64 := by
      simp only [nexthash256_update]
      rw [hupd]
      show (processBlocks ctx.state (ctx.buffer ++ p)).2.1.length = _
      rw [(processBlocks_len ctx.state (ctx.buffer ++ p)).1, List.length_append,
        hbuf]
    have hbc1 : (nexthash256_update ctx p).bitcount =
        (ctx.bitcount + p.length * 8) % 2 ^ 64 := by
      simp only [nexthash256_update]
      rw [hupd]
    have hn1 : (nexthash256_updateAux ctx p).2 =
        (ctx.buflen + p.length) / 64 := by
      rw [hupd]
      show (processBlocks ctx.state (ctx.buffer ++ p)).2.2 = _
      rw [(processBlocks_len ctx.state (ctx.buffer ++ p)).2, List.length_append,
        hbuf]
    rw [hstep]
    have hjoin : (joinParts (p :: ps)).length = p.length + (joinParts ps).length := by
      rw [joinParts, List.length_append]
    refine ⟨ih1, ?_, ?_, ?_⟩
    · rw [ih2, hb1, hjoin]
      omega
    · rw [ih3, hbc1, hjoin, Nat.mod_add_mod]
      congr 1
      ring
    · rw [ih4, hn1, hb1, hjoin]
      omega

/-! ### C1: streaming equivalence -/

/-- C1: for every byte sequence and every partition of it into parts (any
number of parts, any lengths, empty parts allowed), `init` + one `update`
per part + `final` produces the same digest as the one-shot `nexthash256`
on the whole sequence. -/
theorem streaming_eq_oneshot (parts : List (List Nat)) :
    (nexthash256_final (List.foldl nexthash256_update nexthash256_init parts)).1 =
      nexthash256 (joinParts parts) := by
  rw [foldl_update_join parts nexthash256_init WFctx_init]
  rfl

/-! ### C8: a zero-length update is a no-op -/

/-- C8: on any context satisfying the data-model invariants (`buffer` holds
`buflen` bytes, `buflen < 64`, `bitcount` fits 64 bits),
`nexthash256_update` with zero bytes of input leaves every field — state,
bitcount, buffer contents, buflen — exactly unchanged. -/
theorem update_zero_len_noop (ctx : nexthash256_ctx)
    (hbuf : ctx.buffer.length = ctx.buflen) (hlt : ctx.buflen < 64)
    (hbc : ctx.bitcount < 2 ^ 64) :
    (nexthash256_update ctx []).state = ctx.state ∧
    (nexthash256_update ctx []).bitcount = ctx.bitcount ∧
    (nexthash256_update ctx []).buffer = ctx.buffer ∧
    (nexthash256_update ctx []).buflen = ctx.buflen := by
  rw [update_nil ctx ⟨hbuf, hlt, hbc⟩]
  exact ⟨rfl, rfl, rfl, rfl⟩

/-- Witness for C8 at a concrete context. -/
theorem update_zero_len_noop_witness :
    (nexthash256_init.buffer.length = nexthash256_init.buflen ∧
      nexthash256_init.buflen < 64 ∧ nexthash256_init.bitcount < 2 ^ 64) ∧
    ((nexthash256_update nexthash256_init []).state = nexthash256_init.state ∧
      (nexthash256_update nexthash256_init []).bitcount = nexthash256_init.bitcount ∧
      (nexthash256_update nexthash256_init []).buffer = nexthash256_init.buffer ∧
      (nexthash256_update nexthash256_init []).buflen = nexthash256_init.buflen) :=
  ⟨⟨by decide, by decide, by decide⟩,
    update_zero_len_noop nexthash256_init (by decide) (by decide) (by decide)⟩

/-! ### C9: the buffer-length invariant -/

/-- C9: immediately after `nexthash256_init`, and after every call to
`nexthash256_update` on a context with `buflen < 64`, regardless of the
input length, the context satisfies `buflen < 64` (so the invariant holds
after every update since initialization). -/
theorem buflen_invariant :
    nexthash256_init.buflen < 64 ∧
    ∀ (ctx : nexthash256_ctx) (data : List Nat), ctx.buflen < 64 →
      (nexthash256_update ctx data).buflen < 64 := by
  refine ⟨by decide, ?_⟩
  intro ctx data hlt
  simp only [nexthash256_update, nexthash256_updateAux]
  by_cases h0 : 0 < ctx.buflen
  · rw [if_pos h0]
    by_cases hsmall : data.length < 64 - ctx.buflen
    · rw [if_pos hsmall]
      show ctx.buflen + data.length < 64
      omega
    · rw [if_neg hsmall]
      show (processBlocks
          (compress ctx.state (ctx.buffer ++ data.take (64 - ctx.buflen)))
          (data.drop (64 - ctx.buflen))).2.1.length < 64
      rw [(processBlocks_len _ _).1]
      omega
  · rw [if_neg h0]
    show (processBlocks ctx.state data).2.1.length < 64
    rw [(processBlocks_len _ _).1]
    omega

/-- Witness for C9 at a concrete context and input. -/
theorem buflen_invariant_witness :
    nexthash256_init.buflen < 64 ∧
    (nexthash256_update nexthash256_init [1, 2, 3]).buflen < 64 :=
  ⟨by decide, buflen_invariant.2 nexthash256_init [1, 2, 3] (by decide)⟩


/-! ### C4: padding correctness / compression count -/

/-- Well-formedness is preserved by any sequence of updates. -/
theorem WFctx_foldl (parts : List (List Nat)) : ∀ ctx : nexthash256_ctx,
    WFctx ctx → WFctx (List.foldl nexthash256_update ctx parts) := by
  induction parts with
  | nil => intro ctx h; exact h
  | cons p ps ih => intro ctx h; exact ih _ (WFctx_update ctx p h)

/-- The 8-byte length suffix has length 8. -/
theorem bitcountBytes_length (bc : Nat) : (bitcountBytes bc).length = 8 := rfl

/-- `nexthash256_final` feeds `padLenOf buflen + 8` bytes to the update. -/
theorem padBytes_length (ctx : nexthash256_ctx) (h : ctx.buflen < 64) :
    (padBytes ctx).length = padLenOf ctx.buflen + 8 := by
  simp only [padBytes, List.length_append, List.length_cons,
    List.length_replicate, bitcountBytes_length]
  simp only [padLenOf]
  split <;> omega

/-- C4: hashing any input of total length `L` via `init`, updates totalling
`L` bytes (in any number of parts), and `final` invokes the compression
function exactly `⌈(L + 9) / 64⌉` times; the padding length is `56 - b` when
`b = L mod 64 < 56` and `120 - b` otherwise; and absorbing the
`padlen + 8` padding-and-length bytes leaves `buflen = 0`. -/
theorem compression_count (parts : List (List Nat)) :
    (streamCount nexthash256_init parts).2 +
        (nexthash256_finalAux (streamCount nexthash256_init parts).1).2 =
      ((joinParts parts).length + 9 + 63) / 64 ∧
    padLenOf (streamCount nexthash256_init parts).1.buflen =
      (if (joinParts parts).length % 64 < 56 then
        56 - (joinParts parts).length % 64
       else 120 - (joinParts parts).length % 64) ∧
    (nexthash256_updateAux (streamCount nexthash256_init parts).1
        (padBytes (streamCount nexthash256_init parts).1)).1.buflen = 0 := by
  obtain ⟨h1, h2, h3, h4⟩ := streamCount_spec parts nexthash256_init WFctx_init
  have hinitb : nexthash256_init.buflen = 0 := rfl
  have hb : (streamCount nexthash256_init parts).1.buflen =
      (joinParts parts).length % 64 := by
    rw [h2, hinitb]
    omega
  have hcount : (streamCount nexthash256_init parts).2 =
      (joinParts parts).length / 64 := by
    rw [h4, hinitb]
    omega
  have hWFc : WFctx (streamCount nexthash256_init parts).1 := by
    rw [h1]
    exact WFctx_foldl parts _ WFctx_init
  obtain ⟨hcbuf, hclt, _⟩ := hWFc
  have hfin := updateAux_spec (streamCount nexthash256_init parts).1
    (padBytes (streamCount nexthash256_init parts).1) hcbuf hclt
  have hpadlen : (padBytes (streamCount nexthash256_init parts).1).length =
      padLenOf ((joinParts parts).length % 64) + 8 := by
    rw [padBytes_length _ hclt, hb]
  have hfincount : (nexthash256_finalAux (streamCount nexthash256_init parts).1).2 =
      ((joinParts parts).length % 64 +
        (padLenOf ((joinParts parts).length % 64) + 8)) / 64 := by
    show (nexthash256_updateAux (streamCount nexthash256_init parts).1
      (padBytes (streamCount nexthash256_init parts).1)).2 = _
    rw [hfin]
    show (processBlocks _ _).2.2 = _
    rw [(processBlocks_len _ _).2, List.length_append, hcbuf, hb, hpadlen]
  have hfinbuf : (nexthash256_updateAux (streamCount nexthash256_init parts).1
      (padBytes (streamCount nexthash256_init parts).1)).1.buflen =
      ((joinParts parts).length % 64 +
        (padLenOf ((joinParts parts).length % 64) + 8)) % 64 := by
    rw [hfin]
    show (processBlocks _ _).2.1.length = _
    rw [(processBlocks_len _ _).1, List.length_append, hcbuf, hb, hpadlen]
  refine ⟨?_, ?_, ?_⟩
  · rw [hcount, hfincount]
    simp only [padLenOf]
    split <;> omega
  · rw [hb]
    simp only [padLenOf]
  · rw [hfinbuf]
    simp only [padLenOf]
    split <;> omega

/-! ### C5: the length suffix encodes the pre-padding bit count -/

/-- C5: the 8-byte suffix of the padding block fed by `nexthash256_final`
is the big-endian encoding of the bit count as captured before any padding
byte is absorbed: 8 times the total user bytes, mod `2^64` — even though
the padding bytes themselves pass through the counter-incrementing
`nexthash256_update`. -/
theorem length_suffix_prepad (parts : List (List Nat)) :
    (padBytes (List.foldl nexthash256_update nexthash256_init parts)).drop
        (padLenOf (List.foldl nexthash256_update nexthash256_init parts).buflen) =
      bitcountBytes ((joinParts parts).length * 8 % 2 ^ 64) := by
  obtain ⟨h1, h2, h3, h4⟩ := streamCount_spec parts nexthash256_init WFctx_init
  rw [← h1]
  have hWFc : WFctx (streamCount nexthash256_init parts).1 := by
    rw [h1]
    exact WFctx_foldl parts _ WFctx_init
  obtain ⟨hcbuf, hclt, _⟩ := hWFc
  have hbitc : (streamCount nexthash256_init parts).1.bitcount =
      (joinParts parts).length * 8 % 2 ^ 64 := by
    rw [h3]
    have hinitc : nexthash256_init.bitcount = 0 := rfl
    rw [hinitc, Nat.zero_add]
  have hprelen : (0x80 :: List.replicate
      (padLenOf (streamCount nexthash256_init parts).1.buflen - 1) 0).length =
      padLenOf (streamCount nexthash256_init parts).1.buflen := by
    simp only [List.length_cons, List.length_replicate, padLenOf]
    split <;> omega
  simp only [padBytes]
  rw [List.drop_left' hprelen, hbitc]

/-! ### C6: long MAC keys are replaced by their digest -/

theorem bytesBE_length (ws : List Nat) : (bytesBE ws).length = 4 * ws.length := by
  induction ws with
  | nil => rfl
  | cons w ws ih =>
    rw [bytesBE, List.length_append, ih, List.length_cons]
    have h4 : (be32 w).length = 4 := rfl
    rw [h4]
    ring

theorem finalize_hash_length (s : List Nat) : (finalize_hash s).length = 32 := by
  rw [finalize_hash, bytesBE_length]
  simp only [mixPass, List.length_map, List.length_range]

/-- Every digest is exactly 32 bytes. -/
theorem nexthash256_length (data : List Nat) : (nexthash256 data).length = 32 := by
  rw [nexthash256]
  show (finalize_hash _).length = 32
  exact finalize_hash_length _

/-- C6: for every key strictly longer than 64 bytes and every message,
`hmac_nexthash256 K M = hmac_nexthash256 (H(K)) M` where `H(K)` is the
32-byte digest of the key. -/
theorem hmac_long_key (key data : List Nat) (h : 64 < key.length) :
    hmac_nexthash256 key data = hmac_nexthash256 (nexthash256 key) data := by
  simp only [hmac_nexthash256]
  rw [if_pos h, if_neg (by rw [nexthash256_length]; omega)]

/-- Witness for C6 at a concrete 65-byte key. -/
theorem hmac_long_key_witness :
    64 < (List.replicate 65 11).length ∧
    hmac_nexthash256 (List.replicate 65 11) [104, 105] =
      hmac_nexthash256 (nexthash256 (List.replicate 65 11)) [104, 105] :=
  ⟨by decide, hmac_long_key _ _ (by decide)⟩

/-- Witness for C3 at the all-zero block and `i = 16`. -/
theorem expand_message_rec_witness :
    16 ≤ 16 ∧ 16 < 52 ∧
    ((expand_message (List.replicate 64 0)).getD 16 0 =
      ((sigma1 ((expand_message (List.replicate 64 0)).getD (16 - 2) 0) +
          (expand_message (List.replicate 64 0)).getD (16 - 7) 0 +
          sigma0 ((expand_message (List.replicate 64 0)).getD (16 - 15) 0) +
          (expand_message (List.replicate 64 0)).getD (16 - 16) 0) % W32 +
        widening_mul ((expand_message (List.replicate 64 0)).getD (16 - 3) 0)
          ((expand_message (List.replicate 64 0)).getD (16 - 10) 0) +
        (widening_mul ((expand_message (List.replicate 64 0)).getD (16 - 5) 0)
            ((expand_message (List.replicate 64 0)).getD (16 - 12) 0) ^^^
          widening_mul
            ((expand_message (List.replicate 64 0)).getD (16 - 1) 0 ^^^
              (expand_message (List.replicate 64 0)).getD (16 - 8) 0)
            ((expand_message (List.replicate 64 0)).getD (16 - 4) 0 ^^^
              (expand_message (List.replicate 64 0)).getD (16 - 14) 0))) % W32 ∧
      (if 16 < 14 then 16 + 38 else 16 - 14) = 16 - 14) :=
  ⟨by decide, by decide,
    expand_message_rec (List.replicate 64 0) 16 (by decide) (by decide)⟩

end NextHash


